import Mathlib

/-!
Verification of the validated HTTP header container in
`rust-runtime/aws-smithy-runtime-api/src/http/headers.rs`.

The development shallowly embeds the Rust code: Rust `String`/`&str` become
lists of Unicode scalar values (`Str`), raw header-value bytes become lists
of naturals below 256, fallible code returns `Except`/`Option`, and a panic
is an explicit `Outcome.panicked` (or `Option.none`) result.  The wrapped
`http` crate (HeaderName / HeaderValue / HeaderMap) is not part of this
repository; its boundary behaviour is modelled from the specification's
description of the wrapped generic header-map library.
-/

set_option autoImplicit false

namespace SmithyHeaders

/-- A Rust string (`String` / `&str`): a sequence of Unicode scalar values. -/
abbrev Str := List Nat

/-- A byte sequence. -/
abbrev Bytes := List Nat

/-- A Unicode scalar value: below `0x110000` and not a surrogate. -/
def isScalar (c : Nat) : Prop := c < 0x110000 ∧ (c < 0xD800 ∨ 0xDFFF < c)

instance (c : Nat) : Decidable (isScalar c) := by unfold isScalar; infer_instance

/-- A well-formed Rust string: every element is a Unicode scalar value. -/
def ScalarStr (s : Str) : Prop := ∀ c ∈ s, isScalar c

instance (s : Str) : Decidable (ScalarStr s) := by unfold ScalarStr; infer_instance

/-- UTF-8 encoding of a single Unicode scalar value. -/
def utf8EncodeChar (c : Nat) : Bytes :=
  if c < 0x80 then [c]
  else if c < 0x800 then [0xC0 + c / 0x40, 0x80 + c % 0x40]
  else if c < 0x10000 then
    [0xE0 + c / 0x1000, 0x80 + c / 0x40 % 0x40, 0x80 + c % 0x40]
  else
    [0xF0 + c / 0x40000, 0x80 + c / 0x1000 % 0x40, 0x80 + c / 0x40 % 0x40,
     0x80 + c % 0x40]

/-- UTF-8 encoding of a Rust string (`str::as_bytes` / `String::into_bytes`). -/
def utf8Encode (s : Str) : Bytes := (s.map utf8EncodeChar).flatten

/-- Continuation of a 2-byte UTF-8 sequence whose lead byte is `b`. -/
def utf8Tail1 (b : Nat) : Bytes → Option (Nat × Bytes)
  | b1 :: bs1 =>
    if 0x80 ≤ b1 ∧ b1 < 0xC0 then
      some ((b - 0xC0) * 0x40 + (b1 - 0x80), bs1)
    else none
  | [] => none

/-- Continuation of a 3-byte UTF-8 sequence whose lead byte is `b`; the
second-byte ranges for `0xE0` and `0xED` exclude overlong encodings and
surrogates. -/
def utf8Tail2 (b : Nat) : Bytes → Option (Nat × Bytes)
  | b1 :: b2 :: bs2 =>
    if (b = 0xE0 → 0xA0 ≤ b1) ∧ (b = 0xED → b1 < 0xA0) ∧
        0x80 ≤ b1 ∧ b1 < 0xC0 ∧ 0x80 ≤ b2 ∧ b2 < 0xC0 then
      some ((b - 0xE0) * 0x1000 + (b1 - 0x80) * 0x40 + (b2 - 0x80), bs2)
    else none
  | _ => none

/-- Continuation of a 4-byte UTF-8 sequence whose lead byte is `b`; the
second-byte ranges for `0xF0` and `0xF4` exclude overlong encodings and
values above `0x10FFFF`. -/
def utf8Tail3 (b : Nat) : Bytes → Option (Nat × Bytes)
  | b1 :: b2 :: b3 :: bs3 =>
    if (b = 0xF0 → 0x90 ≤ b1) ∧ (b = 0xF4 → b1 < 0x90) ∧
        0x80 ≤ b1 ∧ b1 < 0xC0 ∧ 0x80 ≤ b2 ∧ b2 < 0xC0 ∧
        0x80 ≤ b3 ∧ b3 < 0xC0 then
      some ((b - 0xF0) * 0x40000 + (b1 - 0x80) * 0x1000 +
        (b2 - 0x80) * 0x40 + (b3 - 0x80), bs3)
    else none
  | _ => none

/-- Strict decoding of one UTF-8 scalar value from the front of a byte
sequence, matching `std::str::from_utf8`: lead bytes `0x80`–`0xC1` and
`0xF5`–`0xFF` are rejected, as are overlong encodings and surrogates. -/
def utf8DecodeOne : Bytes → Option (Nat × Bytes)
  | [] => none
  | b :: bs =>
    if b < 0x80 then some (b, bs)
    else if b < 0xC2 then none
    else if b < 0xE0 then utf8Tail1 b bs
    else if b < 0xF0 then utf8Tail2 b bs
    else if b < 0xF5 then utf8Tail3 b bs
    else none

/-- Strict UTF-8 decoding with explicit fuel, one unit per decoded scalar;
`l.length` units always suffice since every scalar consumes at least one
byte. -/
def utf8DecodeFuel : Nat → Bytes → Option Str
  | _, [] => some []
  | 0, _ :: _ => none
  | fuel + 1, b :: bs =>
    match utf8DecodeOne (b :: bs) with
    | some (c, rest) => (utf8DecodeFuel fuel rest).map (c :: ·)
    | none => none

/-- Strict UTF-8 decoding of a byte sequence (`std::str::from_utf8`). -/
def utf8Decode (l : Bytes) : Option Str := utf8DecodeFuel l.length l

/-- UTF-8 validity of a byte sequence (success of `std::str::from_utf8`). -/
def utf8Valid (bs : Bytes) : Bool := (utf8Decode bs).isSome

/-- The typed error of the header layer (`HttpError` in
`aws-smithy-runtime-api/src/http/error.rs`, not under `src/`), modelled from
the spec's error taxonomy: an invalid-name kind, an invalid-value kind, the
value-was-not-UTF-8 kind (`header_was_not_a_string`), and the internal
wrapper `HttpError::new` used for invariant re-checks. -/
inductive HttpError where
  | invalidHeaderName
  | invalidHeaderValue
  | headerWasNotAString
  | internalErr
  deriving DecidableEq

/-- Result of running Rust code that may return normally, fail with a typed
error, or panic. -/
inductive Outcome (α : Type) where
  | ok (a : α)
  | err (e : HttpError)
  | panicked
  deriving DecidableEq

def Outcome.bind {α β : Type} : Outcome α → (α → Outcome β) → Outcome β
  | .ok a, f => f a
  | .err e, _ => .err e
  | .panicked, _ => .panicked

/-- Is `c` an ASCII uppercase letter (`char::is_ascii_uppercase`)? -/
def isAsciiUppercase (c : Nat) : Bool := 0x41 ≤ c && c ≤ 0x5A

/-- Is `c` an ASCII lowercase letter (`char::is_ascii_lowercase`)? -/
def isAsciiLowercase (c : Nat) : Bool := 0x61 ≤ c && c ≤ 0x7A

/-- ASCII-lowercase one character. -/
def lowerChar (c : Nat) : Nat := if isAsciiUppercase c then c + 0x20 else c

/-- ASCII-lowercase a string (`str::to_ascii_lowercase`). -/
def lowerStr (s : Str) : Str := s.map lowerChar

/-- ASCII-uppercase one character. -/
def upperChar (c : Nat) : Nat := if isAsciiLowercase c then c - 0x20 else c

/-- ASCII-uppercase a string (`str::to_ascii_uppercase`). -/
def toAsciiUppercase (s : Str) : Str := s.map upperChar

/-- Modelled from the spec: a character legal in strict (already lowercase)
ASCII header-name syntax in the wrapped header-map library — lowercase
letters, digits and the token punctuation. -/
def nameCharStrict (c : Nat) : Bool :=
  isAsciiLowercase c || (0x30 ≤ c && c ≤ 0x39) ||
  c == 0x21 || c == 0x23 || c == 0x24 || c == 0x25 || c == 0x26 ||
  c == 0x27 || c == 0x2A || c == 0x2B || c == 0x2D || c == 0x2E ||
  c == 0x5E || c == 0x5F || c == 0x60 || c == 0x7C || c == 0x7E

/-- Modelled from the spec: a character accepted by the wrapped library's
dynamic name validation; ASCII uppercase letters are accepted there and
normalized to lowercase. -/
def nameChar (c : Nat) : Bool := nameCharStrict c || isAsciiUppercase c

/-- Modelled from the spec: the wrapped library's pre-validated ASCII header
name, stored in canonical lowercase form so that equality of stored names is
the spec's case-insensitive name equality. -/
structure Http0Name where
  val : Str
  deriving DecidableEq

/-- Modelled from the spec: fallible name construction in the wrapped
library (`http0::HeaderName::try_from` on borrowed or owned text): accepts
nonempty ASCII header-name syntax, normalizing uppercase to lowercase;
`none` is the library's invalid-name error. -/
def http0NameTryFrom (s : Str) : Option Http0Name :=
  if s ≠ [] ∧ s.all nameChar then some ⟨lowerStr s⟩ else none

/-- Modelled from the spec: `http0::HeaderName::from_static`, which requires
the literal to already be in strict (lowercase) header-name syntax and
panics (`none`) otherwise. -/
def http0NameFromStatic (s : Str) : Option Http0Name :=
  if s ≠ [] ∧ s.all nameCharStrict then some ⟨s⟩ else none

/-- Modelled from the spec: the wrapped library's pre-validated byte-sequence
header value (bytes need not be UTF-8 there). -/
structure Http0Value where
  bytes : Bytes
  deriving DecidableEq

/-- Modelled from the spec: a byte legal in a header value — horizontal tab,
visible ASCII including space, or any byte at or above `0x80`; the
disallowed control bytes are `0x00`–`0x1F` (except tab) and `0x7F`. -/
def valueByteOk (b : Nat) : Bool := b == 0x9 || (0x20 ≤ b && b ≠ 0x7F && b ≤ 0xFF)

/-- Modelled from the spec: `http0::HeaderValue::from_bytes` /
`try_from` on raw bytes; `none` is the library's invalid-value error. -/
def http0ValueFromBytes (bs : Bytes) : Option Http0Value :=
  if bs.all valueByteOk then some ⟨bs⟩ else none

/-- Modelled from the spec: `http0::HeaderValue::try_from` on text —
validates the bytes of the UTF-8 encoding. -/
def http0ValueTryFromStr (s : Str) : Option Http0Value :=
  http0ValueFromBytes (utf8Encode s)

/-- Modelled from the spec: the wrapped library's case-insensitive ordered
multi-map, as the ordered list of its (name, value) entries, one entry per
stored value. -/
abbrev HMap (α : Type) := List (Http0Name × α)

/-- First value stored under a name. -/
def hmapGet {α : Type} (m : HMap α) (n : Http0Name) : Option α :=
  (m.find? (fun p => p.1 == n)).map (·.2)

/-- All values stored under a name, in insertion order. -/
def hmapGetAll {α : Type} (m : HMap α) (n : Http0Name) : List α :=
  (m.filter (fun p => p.1 == n)).map (·.2)

def hmapContains {α : Type} (m : HMap α) (n : Http0Name) : Bool :=
  m.any (fun p => p.1 == n)

/-- Total number of stored values (`HeaderMap::len`). -/
def hmapLen {α : Type} (m : HMap α) : Nat := m.length

/-- Modelled from the spec: multi-map insert — replaces every value stored
under the name with the single new one (keeping the key's position),
returning the first previously stored value. -/
def hmapInsert {α : Type} : HMap α → Http0Name → α → HMap α × Option α
  | [], n, v => ([(n, v)], none)
  | (k, w) :: rest, n, v =>
    if k = n then ((n, v) :: rest.filter (fun p => !(p.1 == n)), some w)
    else
      let r := hmapInsert rest n v
      ((k, w) :: r.1, r.2)

/-- Modelled from the spec: multi-map append — adds the value after all
existing ones, reporting whether the name was already present. -/
def hmapAppend {α : Type} (m : HMap α) (n : Http0Name) (v : α) : HMap α × Bool :=
  (m ++ [(n, v)], hmapContains m n)

/-- Modelled from the spec: multi-map remove — deletes every value stored
under the name, returning the first one. -/
def hmapRemove {α : Type} (m : HMap α) (n : Http0Name) : HMap α × Option α :=
  (m.filter (fun p => !(p.1 == n)), hmapGet m n)

/-- Modelled from the spec: string lookup in the wrapped map compares the
ASCII-lowercased key against stored (already lowercase) names, giving
case-insensitive addressing. -/
def keyName (s : Str) : Http0Name := ⟨lowerStr s⟩

/-- `HeaderValue`: this crate's validated UTF-8 header value wrapper. -/
structure HeaderValue where
  _private : Http0Value
  deriving DecidableEq

/-- `HeaderValue::from_http02x`: admits a raw library value only after
checking its bytes are valid UTF-8. -/
def HeaderValue.from_http02x (value : Http0Value) : Except Unit HeaderValue :=
  if utf8Valid value.bytes then .ok ⟨value⟩ else .error ()

/-- `HeaderValue::into_http02x`. -/
def HeaderValue.into_http02x (v : HeaderValue) : Http0Value := v._private

/-- `AsRef<str> for HeaderValue`: re-decodes the wrapped bytes; the
source's `expect("unreachable—only strings may be stored")` is the `none`
case, shown unreachable for validly constructed values in the C9 theorem. -/
def HeaderValue.as_ref (v : HeaderValue) : Option Str :=
  utf8Decode v._private.bytes

/-- `HeaderValue::as_str` as the total string view used by container reads:
it equals what the source's `as_ref` returns whenever the UTF-8 invariant
holds; the `[]` default stands for the panic that C9 proves unreachable. -/
def HeaderValue.as_str (v : HeaderValue) : Str := (v.as_ref).getD []

/-- `TryFrom<String> for HeaderValue` (and `FromStr`): builds the wrapped
library value fallibly, then re-affirms the UTF-8 invariant with
`expect("input was a string")`; the outer `none` models that panic. -/
def HeaderValue.try_from_string (s : Str) : Option (Except HttpError HeaderValue) :=
  match http0ValueTryFromStr s with
  | none => some (.error .invalidHeaderValue)
  | some hv =>
    match HeaderValue.from_http02x hv with
    | .ok v => some (.ok v)
    | .error _ => none

/-- The closed set of caller input kinds accepted as a header component:
the sealed `AsHeaderComponent` implementations (`&'static str`, `String`,
`Cow<'static, str>`, `http0::HeaderValue`, `http0::HeaderName`). -/
inductive Component where
  | staticStr (s : Str)
  | ownedString (s : Str)
  | cowBorrowed (s : Str)
  | cowOwned (s : Str)
  | httpValue (v : Http0Value)
  | httpName (n : Http0Name)
  deriving DecidableEq

/-- `MaybeStatic = Cow<'static, str>`. -/
inductive MaybeStatic where
  | borrowed (s : Str)
  | owned (s : Str)
  deriving DecidableEq

/-- The text held by a cow. -/
def MaybeStatic.str : MaybeStatic → Str
  | .borrowed s => s
  | .owned s => s

/-- Re-viewing a cow as a header component (the `Cow<'static, str>`
implementation of `AsHeaderComponent`). -/
def MaybeStatic.toComponent : MaybeStatic → Component
  | .borrowed s => .cowBorrowed s
  | .owned s => .cowOwned s

/-- `AsHeaderComponent::into_maybe_static` for each input kind; only the
`http0::HeaderValue` kind is fallible (its bytes must decode as UTF-8). -/
def into_maybe_static : Component → Except HttpError MaybeStatic
  | .staticStr s => .ok (.borrowed s)
  | .ownedString s => .ok (.owned s)
  | .cowBorrowed s => .ok (.borrowed s)
  | .cowOwned s => .ok (.owned s)
  | .httpValue v =>
    match utf8Decode v.bytes with
    | some s => .ok (.owned s)
    | none => .error .headerWasNotAString
  | .httpName n => .ok (.owned n.val)

/-- `AsHeaderComponent::repr_as_http02x_header_name`: the lossless identity
fast path for an already-typed native header name. -/
def repr_as_http02x_header_name : Component → Except Component Http0Name
  | .httpName n => .ok n
  | c => .error c

/-- The case-normalization step inside `header_name` (headers.rs lines
339–341): if any character of the coerced text is ASCII uppercase, replace
the cow by an owned `to_ascii_uppercase` copy of it. -/
def normalizeNameCow (cow : MaybeStatic) : MaybeStatic :=
  if cow.str.any isAsciiUppercase then .owned (toAsciiUppercase cow.str) else cow

/-- The branch of `nameFromCow` taken for a borrowed normalized cow. -/
def nameFromBorrowed (s : Str) (panic_safe : Bool) : Outcome Http0Name :=
  if panic_safe then
    match http0NameTryFrom s with
    | some n => .ok n
    | none => .err .invalidHeaderName
  else
    match http0NameFromStatic s with
    | some n => .ok n
    | none => .panicked

/-- The branch of `nameFromCow` taken for an owned normalized cow. -/
def nameFromOwned (s : Str) : Outcome Http0Name :=
  match http0NameTryFrom s with
  | some n => .ok n
  | none => .err .invalidHeaderName

/-- The closure body of `header_name`'s `and_then` (headers.rs lines
338–351): case-normalize the cow, then construct the name — borrowed text
uses the panicking `from_static` constructor unless `panic_safe`; owned text
always validates fallibly. -/
def nameFromCow (cow : MaybeStatic) (panic_safe : Bool) : Outcome Http0Name :=
  match normalizeNameCow cow with
  | .borrowed s =>
    if panic_safe then
      match http0NameTryFrom s with
      | some n => .ok n
      | none => .err .invalidHeaderName
    else
      match http0NameFromStatic s with
      | some n => .ok n
      | none => .panicked
  | .owned s =>
    match http0NameTryFrom s with
    | some n => .ok n
    | none => .err .invalidHeaderName

/-- `header_name(name, panic_safe)` (headers.rs lines 333–353): native names
pass through unchanged; other components are coerced to a cow, case
normalized, and then validated. -/
def header_name (name : Component) (panic_safe : Bool) : Outcome Http0Name :=
  match repr_as_http02x_header_name name with
  | .ok n => .ok n
  | .error name' =>
    match into_maybe_static name' with
    | .error e => .err e
    | .ok cow => nameFromCow cow panic_safe

/-- The `let header = match value { ... }` step of `header_value` (headers.rs
lines 356–364): borrowed text uses the panicking `from_static` constructor
unless `panic_safe`; owned text always validates fallibly. -/
def rawValueFrom (value : MaybeStatic) (panic_safe : Bool) : Outcome Http0Value :=
  match value with
  | .borrowed b =>
    if panic_safe then
      match http0ValueTryFromStr b with
      | some hv => .ok hv
      | none => .err .invalidHeaderValue
    else
      match http0ValueTryFromStr b with
      | some hv => .ok hv
      | none => .panicked
  | .owned s =>
    match http0ValueTryFromStr s with
    | some hv => .ok hv
    | none => .err .invalidHeaderValue

/-- `header_value(value, panic_safe)` (headers.rs lines 355–366): builds the
raw library value, then wraps it, re-affirming the UTF-8 invariant (a
failure there surfaces as `HttpError::new`, not a panic). -/
def header_value (value : MaybeStatic) (panic_safe : Bool) : Outcome HeaderValue :=
  (rawValueFrom value panic_safe).bind fun hv =>
    match HeaderValue.from_http02x hv with
    | .ok v => .ok v
    | .error _ => .err .internalErr

/-- `Headers`: the validated header container. -/
structure Headers where
  headers : HMap HeaderValue
  deriving DecidableEq

/-- `Headers::new`. -/
def Headers.new : Headers := ⟨[]⟩

/-- `Headers::get`: first value for a key, case-insensitively. -/
def Headers.get (h : Headers) (key : Str) : Option Str :=
  (hmapGet h.headers (keyName key)).map HeaderValue.as_str

/-- `Headers::get_all`: all values for a key in insertion order. -/
def Headers.get_all (h : Headers) (key : Str) : List Str :=
  (hmapGetAll h.headers (keyName key)).map HeaderValue.as_str

/-- `Headers::len`: total number of values stored in the map. -/
def Headers.len (h : Headers) : Nat := hmapLen h.headers

/-- `Headers::is_empty`. -/
def Headers.is_empty (h : Headers) : Bool := h.len == 0

/-- `Headers::contains_key`. -/
def Headers.contains_key (h : Headers) (key : Str) : Bool :=
  hmapContains h.headers (keyName key)

/-- `Headers::insert` (headers.rs lines 96–106): key and value are built with
`panic_safe = false` and `unwrap`ped — `none` models the panic; on success
returns the previous first value (as an owned string) and the new state. -/
def Headers.insert (h : Headers) (key value : Component) :
    Option (Option Str × Headers) :=
  match header_name key false with
  | .ok k =>
    match into_maybe_static value with
    | .ok ms =>
      match header_value ms false with
      | .ok v =>
        let r := hmapInsert h.headers k v
        some (r.2.map HeaderValue.as_str, ⟨r.1⟩)
      | _ => none
    | .error _ => none
  | _ => none

/-- `Headers::try_insert` (headers.rs lines 113–124): all validation runs
before the map is touched; on any error the state is returned unchanged. -/
def Headers.try_insert (h : Headers) (key value : Component) :
    Outcome (Option Str) × Headers :=
  match header_name key true with
  | .err e => (.err e, h)
  | .panicked => (.panicked, h)
  | .ok k =>
    match into_maybe_static value with
    | .error e => (.err e, h)
    | .ok ms =>
      match header_value ms true with
      | .err e => (.err e, h)
      | .panicked => (.panicked, h)
      | .ok v =>
        let r := hmapInsert h.headers k v
        (.ok (r.2.map HeaderValue.as_str), ⟨r.1⟩)

/-- `Headers::append` (headers.rs lines 130–134): the key is first coerced
with `into_maybe_static().unwrap()`, then name and value are built with
`panic_safe = false` and `unwrap`ped — `none` models the panic; returns
whether the key already existed and the new state. -/
def Headers.append (h : Headers) (key value : Component) :
    Option (Bool × Headers) :=
  match into_maybe_static key with
  | .error _ => none
  | .ok kc =>
    match header_name kc.toComponent false with
    | .ok k =>
      match into_maybe_static value with
      | .ok ms =>
        match header_value ms false with
        | .ok v =>
          let r := hmapAppend h.headers k v
          some (r.2, ⟨r.1⟩)
        | _ => none
      | .error _ => none
    | _ => none

/-- `Headers::try_append` (headers.rs lines 139–147): all validation runs
before the map is touched; on any error the state is returned unchanged. -/
def Headers.try_append (h : Headers) (key value : Component) :
    Outcome Bool × Headers :=
  match into_maybe_static key with
  | .error e => (.err e, h)
  | .ok kc =>
    match header_name kc.toComponent true with
    | .err e => (.err e, h)
    | .panicked => (.panicked, h)
    | .ok k =>
      match into_maybe_static value with
      | .error e => (.err e, h)
      | .ok ms =>
        match header_value ms true with
        | .err e => (.err e, h)
        | .panicked => (.panicked, h)
        | .ok v =>
          let r := hmapAppend h.headers k v
          (.ok r.2, ⟨r.1⟩)

/-- `Headers::remove` (headers.rs lines 152–156): removes all values for the
key, returning the first removed one as an owned string. -/
def Headers.remove (h : Headers) (key : Str) : Option Str × Headers :=
  let r := hmapRemove h.headers (keyName key)
  (r.2.map HeaderValue.as_str, ⟨r.1⟩)

/-- Wrapping every raw value after bulk validation; `none` models the
`expect("validated above")` panic. -/
def wrapValues : HMap Http0Value → Option (HMap HeaderValue)
  | [] => some []
  | (k, v) :: rest =>
    match HeaderValue.from_http02x v with
    | .error _ => none
    | .ok w => (wrapValues rest).map ((k, w) :: ·)

/-- `TryFrom<HeaderMap> for Headers` (headers.rs lines 159–181): scans every
raw value for UTF-8 validity; if any fails, returns the value-decoding error
and builds nothing; otherwise re-wraps every entry into validated values. -/
def Headers.try_from_map (m : HMap Http0Value) : Option (Except HttpError Headers) :=
  if m.any (fun p => !(utf8Valid p.2.bytes)) then some (.error .headerWasNotAString)
  else (wrapValues m).map (fun l => .ok ⟨l⟩)

/-- The container invariant: every stored value wraps valid UTF-8 bytes, so
every string view of a stored value succeeds without re-validation. -/
def Headers.wf (h : Headers) : Prop :=
  ∀ p ∈ h.headers, utf8Valid p.2._private.bytes = true

/-! ### Supporting lemmas: UTF-8 -/

theorem utf8Tail1_length {b c : Nat} {bs rest : Bytes}
    (h : utf8Tail1 b bs = some (c, rest)) : rest.length < bs.length := by
  match bs with
  | [] => simp [utf8Tail1] at h
  | b1 :: bs1 =>
    simp only [utf8Tail1] at h
    split at h
    · simp only [Option.some.injEq, Prod.mk.injEq] at h
      obtain ⟨h1, h2⟩ := h
      subst h2
      simp
    · simp at h

theorem utf8Tail2_length {b c : Nat} {bs rest : Bytes}
    (h : utf8Tail2 b bs = some (c, rest)) : rest.length < bs.length := by
  match bs with
  | [] => simp [utf8Tail2] at h
  | [b1] => simp [utf8Tail2] at h
  | b1 :: b2 :: bs2 =>
    simp only [utf8Tail2] at h
    split at h
    · simp only [Option.some.injEq, Prod.mk.injEq] at h
      obtain ⟨h1, h2⟩ := h
      subst h2
      simp
      omega
    · simp at h

theorem utf8Tail3_length {b c : Nat} {bs rest : Bytes}
    (h : utf8Tail3 b bs = some (c, rest)) : rest.length < bs.length := by
  match bs with
  | [] => simp [utf8Tail3] at h
  | [b1] => simp [utf8Tail3] at h
  | [b1, b2] => simp [utf8Tail3] at h
  | b1 :: b2 :: b3 :: bs3 =>
    simp only [utf8Tail3] at h
    split at h
    · simp only [Option.some.injEq, Prod.mk.injEq] at h
      obtain ⟨h1, h2⟩ := h
      subst h2
      simp
      omega
    · simp at h

theorem utf8DecodeOne_length {l : Bytes} {c : Nat} {rest : Bytes}
    (h : utf8DecodeOne l = some (c, rest)) : rest.length < l.length := by
  match l with
  | [] => simp [utf8DecodeOne] at h
  | b :: bs =>
    simp only [utf8DecodeOne] at h
    split at h
    · simp only [Option.some.injEq, Prod.mk.injEq] at h
      obtain ⟨h1, h2⟩ := h
      subst h2
      simp
    · split at h
      · simp at h
      · split at h
        · have := utf8Tail1_length h
          simp only [List.length_cons]
          omega
        · split at h
          · have := utf8Tail2_length h
            simp only [List.length_cons]
            omega
          · split at h
            · have := utf8Tail3_length h
              simp only [List.length_cons]
              omega
            · simp at h

theorem utf8DecodeFuel_congr :
    ∀ (f1 f2 : Nat) (l : Bytes), l.length ≤ f1 → l.length ≤ f2 →
      utf8DecodeFuel f1 l = utf8DecodeFuel f2 l := by
  intro f1
  induction f1 with
  | zero =>
    intro f2 l h1 h2
    have : l = [] := List.length_eq_zero.mp (Nat.le_zero.mp h1)
    subst this
    cases f2 <;> rfl
  | succ f1 ih =>
    intro f2 l h1 h2
    match l with
    | [] => cases f2 <;> rfl
    | b :: bs =>
      match f2 with
      | 0 => simp at h2
      | f2 + 1 =>
        simp only [utf8DecodeFuel]
        rcases h : utf8DecodeOne (b :: bs) with _ | ⟨c, rest⟩
        · rfl
        · have hlen := utf8DecodeOne_length h
          simp only [List.length_cons] at hlen h1 h2
          have hr := ih f2 rest (by omega) (by omega)
          simp [hr]

theorem utf8Decode_nil : utf8Decode [] = some [] := rfl

theorem utf8Decode_of_decodeOne_some {l : Bytes} {c : Nat} {rest : Bytes}
    (h : utf8DecodeOne l = some (c, rest)) :
    utf8Decode l = (utf8Decode rest).map (c :: ·) := by
  match l with
  | [] => simp [utf8DecodeOne] at h
  | b :: bs =>
    have hlen := utf8DecodeOne_length h
    simp only [List.length_cons] at hlen
    show utf8DecodeFuel (bs.length + 1) (b :: bs) = _
    simp only [utf8DecodeFuel, h]
    rw [utf8DecodeFuel_congr bs.length rest.length rest (by omega) (by omega)]
    rfl

theorem utf8DecodeOne_encodeChar (c : Nat) (h : isScalar c) (bs : Bytes) :
    utf8DecodeOne (utf8EncodeChar c ++ bs) = some (c, bs) := by
  obtain ⟨hlt, hsur⟩ := h
  by_cases h1 : c < 0x80
  · rw [show utf8EncodeChar c = [c] by rw [utf8EncodeChar, if_pos h1]]
    simp only [List.cons_append, List.nil_append, utf8DecodeOne]
    rw [if_pos h1]
  · by_cases h2 : c < 0x800
    · rw [show utf8EncodeChar c = [0xC0 + c / 0x40, 0x80 + c % 0x40] by
        rw [utf8EncodeChar, if_neg h1, if_pos h2]]
      simp only [List.cons_append, List.nil_append, utf8DecodeOne]
      rw [if_neg (show ¬ 0xC0 + c / 0x40 < 0x80 by omega),
        if_neg (show ¬ 0xC0 + c / 0x40 < 0xC2 by omega),
        if_pos (show 0xC0 + c / 0x40 < 0xE0 by omega)]
      simp only [utf8Tail1]
      rw [if_pos (show 0x80 ≤ 0x80 + c % 0x40 ∧ 0x80 + c % 0x40 < 0xC0 by omega)]
      simp only [Option.some.injEq, Prod.mk.injEq]
      exact ⟨by omega, trivial⟩
    · by_cases h3 : c < 0x10000
      · rw [show utf8EncodeChar c
            = [0xE0 + c / 0x1000, 0x80 + c / 0x40 % 0x40, 0x80 + c % 0x40] by
          rw [utf8EncodeChar, if_neg h1, if_neg h2, if_pos h3]]
        simp only [List.cons_append, List.nil_append, utf8DecodeOne]
        rw [if_neg (show ¬ 0xE0 + c / 0x1000 < 0x80 by omega),
          if_neg (show ¬ 0xE0 + c / 0x1000 < 0xC2 by omega),
          if_neg (show ¬ 0xE0 + c / 0x1000 < 0xE0 by omega),
          if_pos (show 0xE0 + c / 0x1000 < 0xF0 by omega)]
        simp only [utf8Tail2]
        rw [if_pos (show (0xE0 + c / 0x1000 = 0xE0 → 0xA0 ≤ 0x80 + c / 0x40 % 0x40) ∧
            (0xE0 + c / 0x1000 = 0xED → 0x80 + c / 0x40 % 0x40 < 0xA0) ∧
            0x80 ≤ 0x80 + c / 0x40 % 0x40 ∧ 0x80 + c / 0x40 % 0x40 < 0xC0 ∧
            0x80 ≤ 0x80 + c % 0x40 ∧ 0x80 + c % 0x40 < 0xC0 from
          ⟨fun hb => by omega, fun hb => by omega, by omega, by omega,
            by omega, by omega⟩)]
        simp only [Option.some.injEq, Prod.mk.injEq]
        exact ⟨by omega, trivial⟩
      · rw [show utf8EncodeChar c
            = [0xF0 + c / 0x40000, 0x80 + c / 0x1000 % 0x40,
               0x80 + c / 0x40 % 0x40, 0x80 + c % 0x40] by
          rw [utf8EncodeChar, if_neg h1, if_neg h2, if_neg h3]]
        simp only [List.cons_append, List.nil_append, utf8DecodeOne]
        rw [if_neg (show ¬ 0xF0 + c / 0x40000 < 0x80 by omega),
          if_neg (show ¬ 0xF0 + c / 0x40000 < 0xC2 by omega),
          if_neg (show ¬ 0xF0 + c / 0x40000 < 0xE0 by omega),
          if_neg (show ¬ 0xF0 + c / 0x40000 < 0xF0 by omega),
          if_pos (show 0xF0 + c / 0x40000 < 0xF5 by omega)]
        simp only [utf8Tail3]
        rw [if_pos (show (0xF0 + c / 0x40000 = 0xF0 → 0x90 ≤ 0x80 + c / 0x1000 % 0x40) ∧
            (0xF0 + c / 0x40000 = 0xF4 → 0x80 + c / 0x1000 % 0x40 < 0x90) ∧
            0x80 ≤ 0x80 + c / 0x1000 % 0x40 ∧ 0x80 + c / 0x1000 % 0x40 < 0xC0 ∧
            0x80 ≤ 0x80 + c / 0x40 % 0x40 ∧ 0x80 + c / 0x40 % 0x40 < 0xC0 ∧
            0x80 ≤ 0x80 + c % 0x40 ∧ 0x80 + c % 0x40 < 0xC0 from
          ⟨fun hb => by omega, fun hb => by omega, by omega, by omega,
            by omega, by omega, by omega, by omega⟩)]
        simp only [Option.some.injEq, Prod.mk.injEq]
        exact ⟨by omega, trivial⟩

theorem utf8Decode_encodeChar_append (c : Nat) (h : isScalar c) (bs : Bytes) :
    utf8Decode (utf8EncodeChar c ++ bs) = (utf8Decode bs).map (c :: ·) :=
  utf8Decode_of_decodeOne_some (utf8DecodeOne_encodeChar c h bs)

theorem utf8Decode_encode_append (s : Str) (h : ScalarStr s) (bs : Bytes) :
    utf8Decode (utf8Encode s ++ bs) = (utf8Decode bs).map (s ++ ·) := by
  induction s with
  | nil =>
    show utf8Decode ((([] : Str).map utf8EncodeChar).flatten ++ bs) = _
    simp only [List.map_nil, List.flatten_nil, List.nil_append]
    cases utf8Decode bs <;> simp
  | cons c rest ih =>
    have hc : isScalar c := h c (List.mem_cons_self _ _)
    have hrest : ScalarStr rest := fun x hx => h x (List.mem_cons_of_mem _ hx)
    show utf8Decode (((c :: rest).map utf8EncodeChar).flatten ++ bs) = _
    simp only [List.map_cons, List.flatten_cons, List.append_assoc]
    rw [utf8Decode_encodeChar_append c hc,
      show (rest.map utf8EncodeChar).flatten = utf8Encode rest from rfl,
      ih hrest]
    cases utf8Decode bs <;> simp

/-- UTF-8 decoding inverts encoding on well-formed strings. -/
theorem utf8Decode_encode (s : Str) (h : ScalarStr s) :
    utf8Decode (utf8Encode s) = some s := by
  have := utf8Decode_encode_append s h []
  simpa [utf8Decode_nil] using this

/-- The UTF-8 encoding of a well-formed string is valid UTF-8. -/
theorem utf8Valid_encode (s : Str) (h : ScalarStr s) :
    utf8Valid (utf8Encode s) = true := by
  simp [utf8Valid, utf8Decode_encode s h]

/-! ### Supporting lemmas: ASCII case mapping -/

theorem lowerChar_upperChar (c : Nat) : lowerChar (upperChar c) = lowerChar c := by
  unfold lowerChar upperChar isAsciiUppercase isAsciiLowercase
  split_ifs <;> simp_all <;> omega

theorem lowerStr_toAsciiUppercase (s : Str) :
    lowerStr (toAsciiUppercase s) = lowerStr s := by
  simp only [lowerStr, toAsciiUppercase, List.map_map]
  exact List.map_congr_left fun c _ => lowerChar_upperChar c

theorem lowerStr_of_no_uppercase {s : Str} (h : s.any isAsciiUppercase = false) :
    lowerStr s = s := by
  simp only [List.any_eq_false] at h
  have hc : ∀ c ∈ s, lowerChar c = c := by
    intro c hc
    have := h c hc
    simp only [lowerChar]
    simp [this]
  calc lowerStr s = s.map (fun a => a) := List.map_congr_left hc
    _ = s := List.map_id' s

theorem isAsciiLowercase_upperChar (c : Nat) :
    isAsciiLowercase (upperChar c) = false := by
  unfold upperChar isAsciiLowercase
  split_ifs <;> simp_all <;> omega

theorem upperChar_of_nameChar_bad {c : Nat} (h : nameChar c = false) :
    upperChar c = c := by
  unfold nameChar nameCharStrict isAsciiLowercase at h
  unfold upperChar isAsciiLowercase
  split_ifs with hl
  · exfalso
    simp_all
  · rfl

theorem nameChar_upperChar_bad {c : Nat} (h : nameChar c = false) :
    nameChar (upperChar c) = false := by
  rw [upperChar_of_nameChar_bad h, h]

/-! ### Supporting lemmas: name construction -/

theorem normalizeNameCow_cases (cow : MaybeStatic) :
    (cow.str.any isAsciiUppercase = true ∧
      normalizeNameCow cow = .owned (toAsciiUppercase cow.str)) ∨
    (cow.str.any isAsciiUppercase = false ∧ normalizeNameCow cow = cow) := by
  unfold normalizeNameCow
  by_cases h : cow.str.any isAsciiUppercase = true
  · exact Or.inl ⟨h, by rw [if_pos h]⟩
  · exact Or.inr ⟨Bool.eq_false_iff.mpr h, by rw [if_neg h]⟩

theorem http0NameTryFrom_ok {s : Str} {n : Http0Name}
    (h : http0NameTryFrom s = some n) :
    n.val = lowerStr s ∧ s ≠ [] ∧ s.all nameChar = true := by
  unfold http0NameTryFrom at h
  split at h
  · rename_i hcond
    cases h
    exact ⟨rfl, hcond.1, hcond.2⟩
  · cases h

theorem http0NameFromStatic_ok {s : Str} {n : Http0Name}
    (h : http0NameFromStatic s = some n) :
    n.val = s ∧ s ≠ [] ∧ s.all nameCharStrict = true := by
  unfold http0NameFromStatic at h
  split at h
  · rename_i hcond
    cases h
    exact ⟨rfl, hcond.1, hcond.2⟩
  · cases h

theorem nameFromCow_eq_borrowed {cow : MaybeStatic} {u : Str} (ps : Bool)
    (heq : normalizeNameCow cow = .borrowed u) :
    nameFromCow cow ps = nameFromBorrowed u ps := by
  unfold nameFromCow
  rw [heq]
  rfl

theorem nameFromCow_eq_owned {cow : MaybeStatic} {u : Str} (ps : Bool)
    (heq : normalizeNameCow cow = .owned u) :
    nameFromCow cow ps = nameFromOwned u := by
  unfold nameFromCow
  rw [heq]
  rfl

theorem nameFromOwned_ok {s : Str} {n : Http0Name}
    (h : nameFromOwned s = .ok n) : n.val = lowerStr s := by
  unfold nameFromOwned at h
  split at h
  · rename_i n' htf
    cases h
    exact (http0NameTryFrom_ok htf).1
  · cases h

theorem nameFromBorrowed_ok {s : Str} {ps : Bool} {n : Http0Name}
    (h : nameFromBorrowed s ps = .ok n) :
    n.val = lowerStr s ∨ (n.val = s ∧ s.all nameCharStrict = true) := by
  unfold nameFromBorrowed at h
  split at h
  · split at h
    · rename_i n' htf
      cases h
      exact Or.inl (http0NameTryFrom_ok htf).1
    · cases h
  · split at h
    · rename_i n' hfs
      cases h
      have := http0NameFromStatic_ok hfs
      exact Or.inr ⟨this.1, this.2.2⟩
    · cases h

theorem nameCharStrict_no_uppercase {s : Str}
    (h : s.all nameCharStrict = true) : s.any isAsciiUppercase = false := by
  rw [List.all_eq_true] at h
  rw [List.any_eq_false]
  intro c hc
  have := h c hc
  unfold nameCharStrict isAsciiLowercase at this
  unfold isAsciiUppercase
  simp only [Bool.or_eq_true, Bool.and_eq_true, decide_eq_true_eq, beq_iff_eq] at this
  simp only [Bool.and_eq_true, decide_eq_true_eq, not_and]
  omega

theorem nameFromCow_ok_val {cow : MaybeStatic} {ps : Bool} {n : Http0Name}
    (h : nameFromCow cow ps = .ok n) : n.val = lowerStr cow.str := by
  rcases normalizeNameCow_cases cow with ⟨hup, heq⟩ | ⟨hup, heq⟩
  · rw [nameFromCow_eq_owned ps heq] at h
    rw [nameFromOwned_ok h, lowerStr_toAsciiUppercase]
  · rcases hcow : cow with s | s
    · rw [hcow] at heq h
      rw [nameFromCow_eq_borrowed ps heq] at h
      rcases nameFromBorrowed_ok h with h1 | ⟨h1, h2⟩
      · exact h1
      · rw [h1]
        rw [hcow] at hup
        exact (lowerStr_of_no_uppercase hup).symm
    · rw [hcow] at heq h
      rw [nameFromCow_eq_owned ps heq] at h
      exact nameFromOwned_ok h

theorem nameFromCow_safe (cow : MaybeStatic) :
    nameFromCow cow true ≠ .panicked := by
  rcases normalizeNameCow_cases cow with ⟨hup, heq⟩ | ⟨hup, heq⟩
  · rw [nameFromCow_eq_owned true heq]
    unfold nameFromOwned
    split <;> simp
  · rcases hcow : cow with s | s
    · rw [hcow] at heq
      rw [nameFromCow_eq_borrowed true heq]
      unfold nameFromBorrowed
      rw [if_pos rfl]
      split <;> simp
    · rw [hcow] at heq
      rw [nameFromCow_eq_owned true heq]
      unfold nameFromOwned
      split <;> simp

theorem header_name_httpName (n : Http0Name) (ps : Bool) :
    header_name (.httpName n) ps = .ok n := rfl

theorem header_name_staticStr (k : Str) (ps : Bool) :
    header_name (.staticStr k) ps = nameFromCow (.borrowed k) ps := rfl

theorem header_name_ownedString (k : Str) (ps : Bool) :
    header_name (.ownedString k) ps = nameFromCow (.owned k) ps := rfl

theorem header_name_cowBorrowed (k : Str) (ps : Bool) :
    header_name (.cowBorrowed k) ps = nameFromCow (.borrowed k) ps := rfl

theorem header_name_cowOwned (k : Str) (ps : Bool) :
    header_name (.cowOwned k) ps = nameFromCow (.owned k) ps := rfl

theorem header_name_safe (c : Component) :
    header_name c true ≠ .panicked := by
  unfold header_name
  rcases hr : repr_as_http02x_header_name c with c' | n
  · simp only
    rcases hi : into_maybe_static c' with e | cow
    · simp
    · exact nameFromCow_safe cow
  · simp

theorem header_name_ownedString_ok {k : Str} {ps : Bool} {n : Http0Name}
    (h : header_name (.ownedString k) ps = .ok n) : n = keyName k := by
  rw [header_name_ownedString] at h
  have := nameFromCow_ok_val h
  cases n
  simp only [keyName, Http0Name.mk.injEq]
  exact this

theorem nameFromCow_owned_bad {k : Str} (ps : Bool)
    (h : ∃ c ∈ k, nameChar c = false) :
    nameFromCow (.owned k) ps = .err .invalidHeaderName := by
  obtain ⟨c, hc, hbad⟩ := h
  have hall : ∀ s : Str, (∃ d ∈ s, nameChar d = false) → http0NameTryFrom s = none := by
    intro s hex
    obtain ⟨d, hd, hdbad⟩ := hex
    unfold http0NameTryFrom
    rw [if_neg]
    intro hcond
    rw [List.all_eq_true] at hcond
    have := hcond.2 d hd
    rw [hdbad] at this
    cases this
  rcases normalizeNameCow_cases (MaybeStatic.owned k) with ⟨hup, heq⟩ | ⟨hup, heq⟩
  · rw [nameFromCow_eq_owned ps heq]
    unfold nameFromOwned
    have : http0NameTryFrom (toAsciiUppercase (MaybeStatic.str (.owned k))) = none := by
      apply hall
      exact ⟨upperChar c, List.mem_map_of_mem _ hc, nameChar_upperChar_bad hbad⟩
    rw [this]
  · rw [nameFromCow_eq_owned ps heq]
    unfold nameFromOwned
    rw [hall k ⟨c, hc, hbad⟩]

/-! ### Supporting lemmas: value construction -/

theorem from_http02x_ok {v : Http0Value} {w : HeaderValue}
    (h : HeaderValue.from_http02x v = .ok w) :
    w = ⟨v⟩ ∧ utf8Valid v.bytes = true := by
  unfold HeaderValue.from_http02x at h
  split at h
  · cases h
    exact ⟨rfl, by assumption⟩
  · cases h

theorem http0ValueTryFromStr_ok {s : Str} {hv : Http0Value}
    (h : http0ValueTryFromStr s = some hv) : hv = ⟨utf8Encode s⟩ := by
  unfold http0ValueTryFromStr http0ValueFromBytes at h
  split at h
  · cases h
    rfl
  · cases h

theorem rawValueFrom_ok {ms : MaybeStatic} {ps : Bool} {hv : Http0Value}
    (h : rawValueFrom ms ps = .ok hv) : hv = ⟨utf8Encode ms.str⟩ := by
  rcases ms with b | s
  · simp only [rawValueFrom] at h
    split at h
    · split at h
      · rename_i hv0 htf
        cases h
        exact http0ValueTryFromStr_ok htf
      · cases h
    · split at h
      · rename_i hv0 htf
        cases h
        exact http0ValueTryFromStr_ok htf
      · cases h
  · simp only [rawValueFrom] at h
    split at h
    · rename_i hv0 htf
      cases h
      exact http0ValueTryFromStr_ok htf
    · cases h

theorem rawValueFrom_safe (ms : MaybeStatic) : rawValueFrom ms true ≠ .panicked := by
  rcases ms with b | s
  · rcases h : http0ValueTryFromStr b with _ | hv0 <;> simp [rawValueFrom, h]
  · rcases h : http0ValueTryFromStr s with _ | hv0 <;> simp [rawValueFrom, h]

theorem header_value_ok {ms : MaybeStatic} {ps : Bool} {hv : HeaderValue}
    (h : header_value ms ps = .ok hv) :
    hv = ⟨⟨utf8Encode ms.str⟩⟩ ∧ utf8Valid (utf8Encode ms.str) = true := by
  unfold header_value at h
  rcases hraw : rawValueFrom ms ps with hv0 | e | _ <;> rw [hraw] at h <;>
    simp only [Outcome.bind] at h
  · split at h
    · rename_i v hfh
      cases h
      obtain ⟨hw, hval⟩ := from_http02x_ok hfh
      have h0 := rawValueFrom_ok hraw
      subst h0
      exact ⟨hw, hval⟩
    · cases h
  · cases h
  · cases h

theorem header_value_safe (ms : MaybeStatic) : header_value ms true ≠ .panicked := by
  unfold header_value
  rcases hraw : rawValueFrom ms true with hv0 | e | hp
  · simp only [Outcome.bind]
    split <;> simp
  · simp [Outcome.bind]
  · exact absurd hraw (rawValueFrom_safe ms)

theorem header_value_ok_as_str {ms : MaybeStatic} {ps : Bool} {hv : HeaderValue}
    (h : header_value ms ps = .ok hv) (hs : ScalarStr ms.str) :
    hv.as_str = ms.str := by
  obtain ⟨hhv, _⟩ := header_value_ok h
  rw [hhv]
  simp [HeaderValue.as_str, HeaderValue.as_ref, utf8Decode_encode ms.str hs]

theorem http0ValueTryFromStr_bad_control {v : Str} {c : Nat} (hc : c ∈ v)
    (hbad : (c < 0x20 ∧ c ≠ 0x9) ∨ c = 0x7F) :
    http0ValueTryFromStr v = none := by
  unfold http0ValueTryFromStr http0ValueFromBytes
  rw [if_neg]
  intro hall
  rw [List.all_eq_true] at hall
  have hmem : c ∈ utf8Encode v := by
    unfold utf8Encode
    rw [List.mem_flatten]
    refine ⟨utf8EncodeChar c, List.mem_map_of_mem _ hc, ?_⟩
    unfold utf8EncodeChar
    rw [if_pos (by omega)]
    simp
  have hv := hall c hmem
  unfold valueByteOk at hv
  simp only [Bool.or_eq_true, Bool.and_eq_true, decide_eq_true_eq,
    beq_iff_eq] at hv
  omega

theorem rawValueFrom_owned_none {v : Str} (ps : Bool)
    (h : http0ValueTryFromStr v = none) :
    rawValueFrom (.owned v) ps = .err .invalidHeaderValue := by
  simp only [rawValueFrom, h]

theorem header_value_owned_none {v : Str} (ps : Bool)
    (h : http0ValueTryFromStr v = none) :
    header_value (.owned v) ps = .err .invalidHeaderValue := by
  unfold header_value
  rw [rawValueFrom_owned_none ps h]
  rfl

/-! ### Supporting lemmas: the multi-map -/

theorem hmapInsert_snd {α : Type} (m : HMap α) (n : Http0Name) (v : α) :
    (hmapInsert m n v).2 = hmapGet m n := by
  induction m with
  | nil => rfl
  | cons p rest ih =>
    obtain ⟨k, w⟩ := p
    simp only [hmapInsert]
    by_cases hk : k = n
    · rw [if_pos hk]
      subst hk
      have hpos : ((k, w).1 == k) = true := by simp
      simp only [hmapGet]
      rw [List.find?_cons_of_pos (p := fun (q : Http0Name × α) => q.1 == k) rest hpos]
      rfl
    · rw [if_neg hk]
      show (hmapInsert rest n v).2 = _
      have hneg : ¬((k, w).1 == n) = true := by simp [hk]
      simp only [hmapGet]
      rw [List.find?_cons_of_neg (p := fun (q : Http0Name × α) => q.1 == n) rest hneg]
      exact ih

theorem hmapGet_insert_self {α : Type} (m : HMap α) (n : Http0Name) (v : α) :
    hmapGet (hmapInsert m n v).1 n = some v := by
  induction m with
  | nil =>
    show hmapGet [(n, v)] n = some v
    have hpos : ((n, v).1 == n) = true := by simp
    simp only [hmapGet]
    rw [List.find?_cons_of_pos (p := fun (q : Http0Name × α) => q.1 == n) [] hpos]
    rfl
  | cons p rest ih =>
    obtain ⟨k, w⟩ := p
    simp only [hmapInsert]
    by_cases hk : k = n
    · rw [if_pos hk]
      show hmapGet ((n, v) :: rest.filter (fun p => !(p.1 == n))) n = some v
      have hpos : ((n, v).1 == n) = true := by simp
      simp only [hmapGet]
      rw [List.find?_cons_of_pos (p := fun (q : Http0Name × α) => q.1 == n) _ hpos]
      rfl
    · rw [if_neg hk]
      show hmapGet ((k, w) :: (hmapInsert rest n v).1) n = some v
      have hneg : ¬((k, w).1 == n) = true := by simp [hk]
      simp only [hmapGet]
      rw [List.find?_cons_of_neg (p := fun (q : Http0Name × α) => q.1 == n) _ hneg]
      exact ih

theorem hmapGetAll_insert_self {α : Type} (m : HMap α) (n : Http0Name) (v : α) :
    hmapGetAll (hmapInsert m n v).1 n = [v] := by
  induction m with
  | nil =>
    show hmapGetAll [(n, v)] n = [v]
    simp [hmapGetAll]
  | cons p rest ih =>
    obtain ⟨k, w⟩ := p
    simp only [hmapInsert]
    by_cases hk : k = n
    · rw [if_pos hk]
      show hmapGetAll ((n, v) :: rest.filter (fun p => !(p.1 == n))) n = [v]
      have hpos : ((n, v).1 == n) = true := by simp
      simp only [hmapGetAll]
      rw [List.filter_cons_of_pos (p := fun (q : Http0Name × α) => q.1 == n) hpos,
        List.filter_filter]
      have hnil : (rest.filter fun p => (p.1 == n) && !(p.1 == n)) = [] := by
        apply List.filter_eq_nil.mpr
        intro q hq
        simp
      rw [hnil]
      rfl
    · rw [if_neg hk]
      show hmapGetAll ((k, w) :: (hmapInsert rest n v).1) n = [v]
      have hneg : ¬((k, w).1 == n) = true := by simp [hk]
      simp only [hmapGetAll]
      rw [List.filter_cons_of_neg (p := fun (q : Http0Name × α) => q.1 == n) hneg]
      exact ih

theorem hmapGetAll_append_last {α : Type} (m : HMap α) (n : Http0Name) (v : α) :
    hmapGetAll (m ++ [(n, v)]) n = hmapGetAll m n ++ [v] := by
  simp [hmapGetAll, List.filter_append]

theorem hmapContains_append_last {α : Type} (m : HMap α) (n : Http0Name) (v : α) :
    hmapContains (m ++ [(n, v)]) n = true := by
  simp [hmapContains]

theorem hmapContains_filter_out {α : Type} (m : HMap α) (n : Http0Name) :
    hmapContains (m.filter (fun p => !(p.1 == n))) n = false := by
  simp only [hmapContains, List.any_eq_false]
  intro p hp
  rw [List.mem_filter] at hp
  simpa using hp.2

theorem hmapRemove_absent {α : Type} (m : HMap α) (n : Http0Name)
    (h : hmapContains m n = false) : hmapRemove m n = (m, none) := by
  rw [hmapContains, List.any_eq_false] at h
  unfold hmapRemove hmapGet
  rw [List.filter_eq_self.mpr (fun p hp => by simpa using h p hp),
    List.find?_eq_none.mpr h]
  rfl

theorem mem_hmapInsert {α : Type} {m : HMap α} {n : Http0Name} {v : α}
    {p : Http0Name × α} (hp : p ∈ (hmapInsert m n v).1) :
    p = (n, v) ∨ p ∈ m := by
  induction m with
  | nil =>
    simp only [hmapInsert] at hp
    rcases List.mem_cons.mp hp with h1 | h1
    · exact Or.inl h1
    · cases h1
  | cons q rest ih =>
    obtain ⟨k, w⟩ := q
    simp only [hmapInsert] at hp
    by_cases hk : k = n
    · rw [if_pos hk] at hp
      rcases List.mem_cons.mp hp with h1 | h1
      · exact Or.inl h1
      · exact Or.inr (List.mem_cons_of_mem _ (List.mem_filter.mp h1).1)
    · rw [if_neg hk] at hp
      rcases List.mem_cons.mp hp with h1 | h1
      · exact Or.inr (h1 ▸ List.mem_cons_self _ _)
      · rcases ih h1 with h2 | h2
        · exact Or.inl h2
        · exact Or.inr (List.mem_cons_of_mem _ h2)

theorem wrapValues_ok {m : HMap Http0Value}
    (h : ∀ p ∈ m, utf8Valid p.2.bytes = true) :
    ∃ l, wrapValues m = some l ∧ l.length = m.length ∧
      ∀ q ∈ l, utf8Valid q.2._private.bytes = true := by
  induction m with
  | nil => exact ⟨[], rfl, rfl, by simp⟩
  | cons p rest ih =>
    obtain ⟨k, v⟩ := p
    have hv : utf8Valid v.bytes = true := h (k, v) (List.mem_cons_self _ _)
    obtain ⟨l, hl, hlen, hall⟩ := ih (fun q hq => h q (List.mem_cons_of_mem _ hq))
    refine ⟨(k, ⟨v⟩) :: l, ?_, by simp [hlen], ?_⟩
    · simp only [wrapValues]
      rw [show HeaderValue.from_http02x v = .ok ⟨v⟩ by
        unfold HeaderValue.from_http02x
        rw [if_pos hv], hl]
      rfl
    · intro q hq
      rcases List.mem_cons.mp hq with h1 | h1
      · subst h1
        exact hv
      · exact hall q h1

theorem wrapValues_mem {m : HMap Http0Value} {l : HMap HeaderValue}
    (h : wrapValues m = some l) :
    ∀ q ∈ l, utf8Valid q.2._private.bytes = true := by
  induction m generalizing l with
  | nil =>
    cases h
    simp
  | cons p rest ih =>
    obtain ⟨k, v⟩ := p
    simp only [wrapValues] at h
    split at h
    · cases h
    · rename_i w hw
      rcases hrest : wrapValues rest with _ | l' <;> rw [hrest] at h
      · cases h
      · simp only [Option.map_some', Option.some.injEq] at h
        subst h
        intro q hq
        rcases List.mem_cons.mp hq with h1 | h1
        · subst h1
          obtain ⟨hw1, hw2⟩ := from_http02x_ok hw
          rw [hw1]
          exact hw2
        · exact ih hrest q h1

theorem nameFromCow_owned_ok {k : Str} {ps : Bool} {n : Http0Name}
    (h : nameFromCow (.owned k) ps = .ok n) : n = keyName k := by
  have := nameFromCow_ok_val h
  cases n
  simp only [keyName, Http0Name.mk.injEq]
  exact this

theorem append_ownedString_ok {h : Headers} {k v : Str} {b : Bool}
    {h' : Headers}
    (ha : h.append (.ownedString k) (.ownedString v) = some (b, h')) :
    ∃ w, header_value (.owned v) false = .ok w ∧
      h' = ⟨h.headers ++ [(keyName k, w)]⟩ ∧ b = h.contains_key k := by
  unfold Headers.append at ha
  split at ha
  · cases ha
  · rename_i kc hkc
    simp only [into_maybe_static, Except.ok.injEq] at hkc
    subst hkc
    split at ha
    · rename_i n hn
      split at ha
      · rename_i ms hms
        simp only [into_maybe_static, Except.ok.injEq] at hms
        subst hms
        split at ha
        · rename_i w hw
          simp only [Option.some.injEq, Prod.mk.injEq] at ha
          obtain ⟨hb, hh'⟩ := ha
          rw [show (MaybeStatic.owned k).toComponent = Component.cowOwned k
            from rfl, header_name_cowOwned] at hn
          have hnk := nameFromCow_owned_ok hn
          subst hnk
          exact ⟨w, hw, hh'.symm, hb.symm⟩
        · cases ha
      · cases ha
    · cases ha

theorem header_value_ok_valid {ms : MaybeStatic} {ps : Bool}
    {hv : HeaderValue} (h : header_value ms ps = .ok hv) :
    utf8Valid hv._private.bytes = true := by
  obtain ⟨h1, h2⟩ := header_value_ok h
  rw [h1]
  exact h2

theorem wf_hmapInsert {h : Headers} {n : Http0Name} {w : HeaderValue}
    (hwf : h.wf) (hw : utf8Valid w._private.bytes = true) :
    (Headers.mk (hmapInsert h.headers n w).1).wf := by
  intro p hp
  rcases mem_hmapInsert hp with h1 | h1
  · subst h1
    exact hw
  · exact hwf p h1

theorem wf_hmapAppend {h : Headers} {n : Http0Name} {w : HeaderValue}
    (hwf : h.wf) (hw : utf8Valid w._private.bytes = true) :
    (Headers.mk (h.headers ++ [(n, w)])).wf := by
  intro p hp
  rcases List.mem_append.mp hp with h1 | h1
  · exact hwf p h1
  · rcases List.mem_cons.mp h1 with h2 | h2
    · subst h2
      exact hw
    · cases h2

theorem insert_ok_shape {h : Headers} {key value : Component}
    {prev : Option Str} {h' : Headers}
    (hins : h.insert key value = some (prev, h')) :
    ∃ n ms w, header_value ms false = .ok w ∧
      h' = ⟨(hmapInsert h.headers n w).1⟩ := by
  unfold Headers.insert at hins
  split at hins
  · rename_i n hn
    split at hins
    · rename_i ms hms
      split at hins
      · rename_i w hw
        simp only [Option.some.injEq, Prod.mk.injEq] at hins
        exact ⟨n, ms, w, hw, hins.2.symm⟩
      · cases hins
    · cases hins
  · cases hins

theorem append_ok_shape {h : Headers} {key value : Component} {b : Bool}
    {h' : Headers} (ha : h.append key value = some (b, h')) :
    ∃ n ms w, header_value ms false = .ok w ∧
      h' = ⟨h.headers ++ [(n, w)]⟩ := by
  unfold Headers.append at ha
  split at ha
  · cases ha
  · rename_i kc hkc
    split at ha
    · rename_i n hn
      split at ha
      · rename_i ms hms
        split at ha
        · rename_i w hw
          simp only [Option.some.injEq, Prod.mk.injEq] at ha
          exact ⟨n, ms, w, hw, ha.2.symm⟩
        · cases ha
      · cases ha
    · cases ha

/-! ### Claim theorems -/

/-- C1: for every header container and every pair of caller-supplied
components — in particular arbitrary strings, including the empty string,
arbitrary Unicode and embedded control characters — `try_insert` and
`try_append` return `Ok` or a typed error and never panic. -/
theorem c1_try_mutations_never_panic (h : Headers) (key value : Component) :
    (h.try_insert key value).1 ≠ .panicked ∧
    (h.try_append key value).1 ≠ .panicked := by
  constructor
  · unfold Headers.try_insert
    rcases hn : header_name key true with n | e | hp
    · simp only
      rcases hi : into_maybe_static value with e | ms
      · simp
      · simp only
        rcases hv : header_value ms true with v | e | hp
        · simp
        · simp
        · exact absurd hv (header_value_safe ms)
    · simp
    · exact absurd hn (header_name_safe key)
  · unfold Headers.try_append
    rcases hi : into_maybe_static key with e | kc
    · simp
    · simp only
      rcases hn : header_name kc.toComponent true with n | e | hp
      · simp only
        rcases hiv : into_maybe_static value with e | ms
        · simp
        · simp only
          rcases hv : header_value ms true with v | e | hp
          · simp
          · simp
          · exact absurd hv (header_value_safe ms)
      · simp
      · exact absurd hn (header_name_safe _)

/-- C10: the fallible mutations are atomic — whenever `try_insert` or
`try_append` returns a typed error, the container is exactly the one from
before the call, because all name and value validation completes before the
underlying map is touched. -/
theorem c10_try_mutations_atomic (h : Headers) (key value : Component)
    (e : HttpError) :
    ((h.try_insert key value).1 = .err e → (h.try_insert key value).2 = h) ∧
    ((h.try_append key value).1 = .err e → (h.try_append key value).2 = h) := by
  constructor
  · unfold Headers.try_insert
    rcases hn : header_name key true with n | e' | hp
    · simp only
      rcases hi : into_maybe_static value with e' | ms
      · intro _
        rfl
      · simp only
        rcases hv : header_value ms true with v | e' | hp
        · intro hc
          cases hc
        · intro _
          rfl
        · intro _
          rfl
    · intro _
      rfl
    · intro _
      rfl
  · unfold Headers.try_append
    rcases hi : into_maybe_static key with e' | kc
    · intro _
      rfl
    · simp only
      rcases hn : header_name kc.toComponent true with n | e' | hp
      · simp only
        rcases hiv : into_maybe_static value with e' | ms
        · intro _
          rfl
        · simp only
          rcases hv : header_value ms true with v | e' | hp
          · intro hc
            cases hc
          · intro _
            rfl
          · intro _
            rfl
      · intro _
        rfl
      · intro _
        rfl

/-- C10 witness: a failed `try_insert`/`try_append` on an invalid key leaves
an empty container empty. -/
theorem c10_witness :
    (Headers.new.try_insert (.ownedString [0x1F4A9]) (.ownedString [0x31])).2
      = Headers.new ∧
    (Headers.new.try_append (.ownedString [0x1F4A9]) (.ownedString [0x31])).2
      = Headers.new :=
  ⟨(c10_try_mutations_atomic Headers.new (.ownedString [0x1F4A9])
      (.ownedString [0x31]) .invalidHeaderName).1 (by decide),
   (c10_try_mutations_atomic Headers.new (.ownedString [0x1F4A9])
      (.ownedString [0x31]) .invalidHeaderName).2 (by decide)⟩

/-- C2: after inserting under the mixed-case key `"X-Foo"`, the entry is
addressable under every ASCII-case variant of the key; in particular
`get "x-foo"` returns the stored value `"1"`. -/
theorem c2_mixed_case_insert_lowercase_get (h : Headers) (k' : Str)
    (hk : lowerStr k' = [0x78, 0x2D, 0x66, 0x6F, 0x6F]) :
    ∃ prev h',
      h.insert (.staticStr [0x58, 0x2D, 0x46, 0x6F, 0x6F])
        (.staticStr [0x31]) = some (prev, h') ∧
      h'.get k' = some [0x31] := by
  have hn : header_name (.staticStr [0x58, 0x2D, 0x46, 0x6F, 0x6F]) false
      = .ok ⟨[0x78, 0x2D, 0x66, 0x6F, 0x6F]⟩ := by decide
  have hv : header_value (.borrowed [0x31]) false = .ok ⟨⟨[0x31]⟩⟩ := by decide
  unfold Headers.insert
  rw [hn]
  simp only [into_maybe_static]
  rw [hv]
  refine ⟨_, _, rfl, ?_⟩
  show (hmapGet (hmapInsert h.headers ⟨[0x78, 0x2D, 0x66, 0x6F, 0x6F]⟩
      ⟨⟨[0x31]⟩⟩).1 (keyName k')).map HeaderValue.as_str = some [0x31]
  rw [show keyName k' = ⟨[0x78, 0x2D, 0x66, 0x6F, 0x6F]⟩ by
    simp only [keyName, hk]]
  rw [hmapGet_insert_self]
  decide

/-- C2 witness: inserting `"X-Foo" ↦ "1"` into the empty container makes the
entry retrievable under the case variant `"X-FOO"`. -/
theorem c2_witness :
    ∃ prev h',
      Headers.new.insert (.staticStr [0x58, 0x2D, 0x46, 0x6F, 0x6F])
        (.staticStr [0x31]) = some (prev, h') ∧
      h'.get [0x58, 0x2D, 0x46, 0x4F, 0x4F] = some [0x31] :=
  c2_mixed_case_insert_lowercase_get Headers.new
    [0x58, 0x2D, 0x46, 0x4F, 0x4F] (by decide)

/-- C4: a successful `insert` replaces all values previously stored under
the key with exactly the new one — `get_all` afterwards yields the single
new value — and returns the first previously stored value (or nothing). -/
theorem c4_insert_fully_replaces (h : Headers) (k v : Str)
    (prev : Option Str) (h' : Headers) (hs : ScalarStr v)
    (hins : h.insert (.ownedString k) (.ownedString v) = some (prev, h')) :
    h'.get_all k = [v] ∧ prev = h.get k := by
  unfold Headers.insert at hins
  split at hins
  · rename_i n hn
    split at hins
    · rename_i ms hms
      simp only [into_maybe_static, Except.ok.injEq] at hms
      subst hms
      split at hins
      · rename_i w hw
        simp only [Option.some.injEq, Prod.mk.injEq] at hins
        obtain ⟨hprev, hh'⟩ := hins
        subst hprev
        subst hh'
        have hnk := header_name_ownedString_ok hn
        subst hnk
        constructor
        · show (hmapGetAll (hmapInsert h.headers (keyName k) w).1
            (keyName k)).map HeaderValue.as_str = [v]
          have e : w.as_str = v := header_value_ok_as_str hw hs
          rw [hmapGetAll_insert_self]
          show [w.as_str] = [v]
          rw [e]
        · show (hmapInsert h.headers (keyName k) w).2.map HeaderValue.as_str
            = h.get k
          rw [hmapInsert_snd]
          rfl
      · cases hins
    · cases hins
  · cases hins

/-- C4 witness: re-inserting under key `"a"` replaces the stored `"1"` with
`"2"` and returns the previous value `"1"`. -/
theorem c4_witness :
    (Headers.mk [(⟨[0x61]⟩, ⟨⟨[0x32]⟩⟩)]).get_all [0x61] = [[0x32]] ∧
    some [0x31] = (Headers.mk [(⟨[0x61]⟩, ⟨⟨[0x31]⟩⟩)]).get [0x61] :=
  c4_insert_fully_replaces (Headers.mk [(⟨[0x61]⟩, ⟨⟨[0x31]⟩⟩)])
    [0x61] [0x32] (some [0x31]) (Headers.mk [(⟨[0x61]⟩, ⟨⟨[0x32]⟩⟩)])
    (by decide) (by decide)

/-- C5: two successive `append`s under one key leave `get_all` yielding the
prior values followed by the two new values in insertion order, and each
append reports whether the key existed before that call (so the second one
reports `true`). -/
theorem c5_append_preserves_order (h : Headers) (k v1 v2 : Str)
    (b1 b2 : Bool) (h1 h2 : Headers)
    (hs1 : ScalarStr v1) (hs2 : ScalarStr v2)
    (ha1 : h.append (.ownedString k) (.ownedString v1) = some (b1, h1))
    (ha2 : h1.append (.ownedString k) (.ownedString v2) = some (b2, h2)) :
    h2.get_all k = h.get_all k ++ [v1, v2] ∧
    b1 = h.contains_key k ∧ b2 = h1.contains_key k ∧ b2 = true := by
  obtain ⟨w1, hw1, hh1, hb1⟩ := append_ownedString_ok ha1
  obtain ⟨w2, hw2, hh2, hb2⟩ := append_ownedString_ok ha2
  subst hh1
  subst hh2
  refine ⟨?_, hb1, hb2, ?_⟩
  · show (hmapGetAll ((h.headers ++ [(keyName k, w1)]) ++ [(keyName k, w2)])
      (keyName k)).map HeaderValue.as_str = _
    rw [hmapGetAll_append_last, hmapGetAll_append_last]
    have e1 : w1.as_str = v1 := header_value_ok_as_str hw1 hs1
    have e2 : w2.as_str = v2 := header_value_ok_as_str hw2 hs2
    simp only [List.map_append, List.map_cons, List.map_nil, e1, e2]
    show h.get_all k ++ [v1] ++ [v2] = h.get_all k ++ [v1, v2]
    simp
  · rw [hb2]
    show hmapContains (h.headers ++ [(keyName k, w1)]) (keyName k) = true
    exact hmapContains_append_last _ _ _

/-- C5 witness: appending `"1"` then `"2"` under key `"a"` starting from the
empty container yields exactly `["1", "2"]`, with the first append reporting
the key new and the second reporting it present. -/
theorem c5_witness :
    (Headers.mk [(⟨[0x61]⟩, ⟨⟨[0x31]⟩⟩), (⟨[0x61]⟩, ⟨⟨[0x32]⟩⟩)]).get_all
        [0x61] = Headers.new.get_all [0x61] ++ [[0x31], [0x32]] ∧
    false = Headers.new.contains_key [0x61] ∧
    true = (Headers.mk [(⟨[0x61]⟩, ⟨⟨[0x31]⟩⟩)]).contains_key [0x61] ∧
    true = true :=
  c5_append_preserves_order Headers.new [0x61] [0x31] [0x32] false true
    (Headers.mk [(⟨[0x61]⟩, ⟨⟨[0x31]⟩⟩)])
    (Headers.mk [(⟨[0x61]⟩, ⟨⟨[0x31]⟩⟩), (⟨[0x61]⟩, ⟨⟨[0x32]⟩⟩)])
    (by decide) (by decide) (by decide) (by decide)

/-- C8: `remove` deletes every value stored under the key and returns the
first removed value as an owned string; on an absent key it returns nothing
and leaves the container unchanged, in particular with unchanged count. -/
theorem c8_remove_all_and_frame (h : Headers) (k : Str) :
    ((h.remove k).2).contains_key k = false ∧
    (h.remove k).1 = h.get k ∧
    (h.contains_key k = false →
      (h.remove k).2 = h ∧ ((h.remove k).2).len = h.len) := by
  refine ⟨?_, rfl, ?_⟩
  · show hmapContains (h.headers.filter
      (fun p => !(p.1 == keyName k))) (keyName k) = false
    exact hmapContains_filter_out _ _
  · intro hc
    have habs := hmapRemove_absent h.headers (keyName k) hc
    have h2 : (h.remove k).2 = h := by
      show (⟨(hmapRemove h.headers (keyName k)).1⟩ : Headers) = h
      rw [habs]
    exact ⟨h2, by rw [h2]⟩

/-- C8 witness: removing the absent key `"b"` from a one-entry container
returns nothing and leaves the container (and its count) unchanged. -/
theorem c8_witness :
    (((Headers.mk [(⟨[0x61]⟩, ⟨⟨[0x31]⟩⟩)]).remove [0x62]).2).contains_key
      [0x62] = false ∧
    ((Headers.mk [(⟨[0x61]⟩, ⟨⟨[0x31]⟩⟩)]).remove [0x62]).1
      = (Headers.mk [(⟨[0x61]⟩, ⟨⟨[0x31]⟩⟩)]).get [0x62] ∧
    ((Headers.mk [(⟨[0x61]⟩, ⟨⟨[0x31]⟩⟩)]).remove [0x62]).2
      = Headers.mk [(⟨[0x61]⟩, ⟨⟨[0x31]⟩⟩)] ∧
    (((Headers.mk [(⟨[0x61]⟩, ⟨⟨[0x31]⟩⟩)]).remove [0x62]).2).len
      = (Headers.mk [(⟨[0x61]⟩, ⟨⟨[0x31]⟩⟩)]).len := by
  have hmain := c8_remove_all_and_frame
    (Headers.mk [(⟨[0x61]⟩, ⟨⟨[0x31]⟩⟩)]) [0x62]
  have hcond := hmain.2.2 (by decide)
  exact ⟨hmain.1, hmain.2.1, hcond.1, hcond.2⟩

/-- C6: bulk conversion is all-or-nothing — a raw collection whose values
are all valid UTF-8 converts successfully with `count()` equal to the number
of raw entries, while a collection with any non-UTF-8 value fails with the
value-decoding error and constructs no container at all. -/
theorem c6_bulk_conversion_all_or_nothing (m : HMap Http0Value) :
    ((∀ p ∈ m, utf8Valid p.2.bytes = true) →
      ∃ hm, Headers.try_from_map m = some (.ok hm) ∧ hm.len = hmapLen m) ∧
    ((∃ p ∈ m, utf8Valid p.2.bytes = false) →
      Headers.try_from_map m = some (.error .headerWasNotAString)) := by
  constructor
  · intro hall
    obtain ⟨l, hl, hlen, _⟩ := wrapValues_ok hall
    have hcond : ¬((m.any fun p => !(utf8Valid p.2.bytes)) = true) := by
      intro hcontra
      rw [List.any_eq_true] at hcontra
      obtain ⟨p, hp, hbad⟩ := hcontra
      rw [hall p hp] at hbad
      simp at hbad
    refine ⟨Headers.mk l, ?_, hlen⟩
    unfold Headers.try_from_map
    rw [if_neg hcond, hl]
    rfl
  · rintro ⟨p, hp, hbad⟩
    unfold Headers.try_from_map
    rw [if_pos]
    rw [List.any_eq_true]
    exact ⟨p, hp, by simp [hbad]⟩

/-- C6 witness: a singleton raw collection with the UTF-8 value `"1"`
converts with count 1, while one with the non-UTF-8 value `[0xC0, 0x80]`
fails with the value-decoding error. -/
theorem c6_witness :
    (∃ hm, Headers.try_from_map ([(⟨[0x61]⟩, ⟨[0x31]⟩)] : HMap Http0Value)
        = some (.ok hm) ∧
      hm.len = hmapLen ([(⟨[0x61]⟩, ⟨[0x31]⟩)] : HMap Http0Value)) ∧
    Headers.try_from_map ([(⟨[0x61]⟩, ⟨[0xC0, 0x80]⟩)] : HMap Http0Value)
      = some (.error .headerWasNotAString) :=
  ⟨(c6_bulk_conversion_all_or_nothing
      ([(⟨[0x61]⟩, ⟨[0x31]⟩)] : HMap Http0Value)).1 (by decide),
   (c6_bulk_conversion_all_or_nothing
      ([(⟨[0x61]⟩, ⟨[0xC0, 0x80]⟩)] : HMap Http0Value)).2
     ⟨(⟨[0x61]⟩, ⟨[0xC0, 0x80]⟩), by simp, by decide⟩⟩

/-- C9: every validated `HeaderValue` wraps valid UTF-8 bytes — established
once at construction along every public construction path (`from_http02x`,
`TryFrom<String>`, `header_value`) — string views of such values succeed
without re-validation, and the container invariant (all stored values valid)
holds for the empty container and is preserved by bulk conversion, insert,
try_insert, append, try_append and remove. -/
theorem c9_utf8_invariant :
    (∀ (v : Http0Value) (w : HeaderValue),
      HeaderValue.from_http02x v = .ok w → utf8Valid w._private.bytes = true) ∧
    (∀ (s : Str) (r : HeaderValue),
      HeaderValue.try_from_string s = some (.ok r) →
        utf8Valid r._private.bytes = true) ∧
    (∀ (ms : MaybeStatic) (ps : Bool) (w : HeaderValue),
      header_value ms ps = .ok w → utf8Valid w._private.bytes = true) ∧
    (∀ w : HeaderValue, utf8Valid w._private.bytes = true →
      w.as_ref = some w.as_str) ∧
    Headers.new.wf ∧
    (∀ (m : HMap Http0Value) (hm : Headers),
      Headers.try_from_map m = some (.ok hm) → hm.wf) ∧
    (∀ (h : Headers) (key value : Component) (prev : Option Str)
      (h' : Headers), h.wf → h.insert key value = some (prev, h') → h'.wf) ∧
    (∀ (h : Headers) (key value : Component),
      h.wf → (h.try_insert key value).2.wf) ∧
    (∀ (h : Headers) (key value : Component) (b : Bool) (h' : Headers),
      h.wf → h.append key value = some (b, h') → h'.wf) ∧
    (∀ (h : Headers) (key value : Component),
      h.wf → (h.try_append key value).2.wf) ∧
    (∀ (h : Headers) (k : Str), h.wf → ((h.remove k).2).wf) := by
  refine ⟨?_, ?_, ?_, ?_, ?_, ?_, ?_, ?_, ?_, ?_, ?_⟩
  · intro v w hw
    obtain ⟨h1, h2⟩ := from_http02x_ok hw
    rw [h1]
    exact h2
  · intro s r hr
    unfold HeaderValue.try_from_string at hr
    split at hr
    · simp only [Option.some.injEq] at hr
      cases hr
    · rename_i hv htf
      split at hr
      · rename_i w hw
        simp only [Option.some.injEq, Except.ok.injEq] at hr
        subst hr
        obtain ⟨h1, h2⟩ := from_http02x_ok hw
        rw [h1]
        exact h2
      · cases hr
  · intro ms ps w hw
    exact header_value_ok_valid hw
  · intro w hval
    unfold utf8Valid at hval
    rcases hdec : utf8Decode w._private.bytes with _ | s
    · rw [hdec] at hval
      simp at hval
    · simp [HeaderValue.as_ref, HeaderValue.as_str, hdec]
  · intro p hp
    simp only [Headers.new] at hp
    cases hp
  · intro m hm htf
    unfold Headers.try_from_map at htf
    split at htf
    · simp only [Option.some.injEq] at htf
      cases htf
    · rcases hw : wrapValues m with _ | l <;> rw [hw] at htf
      · cases htf
      · simp only [Option.map_some', Option.some.injEq, Except.ok.injEq] at htf
        subst htf
        intro p hp
        exact wrapValues_mem hw p hp
  · intro h key value prev h' hwf hins
    obtain ⟨n, ms, w, hw, hh'⟩ := insert_ok_shape hins
    subst hh'
    exact wf_hmapInsert hwf (header_value_ok_valid hw)
  · intro h key value hwf
    unfold Headers.try_insert
    rcases hn : header_name key true with n | e | hp
    · simp only
      rcases hi : into_maybe_static value with e | ms
      · exact hwf
      · simp only
        rcases hv : header_value ms true with w | e | hp
        · exact wf_hmapInsert hwf (header_value_ok_valid hv)
        · exact hwf
        · exact hwf
    · exact hwf
    · exact hwf
  · intro h key value b h' hwf ha
    obtain ⟨n, ms, w, hw, hh'⟩ := append_ok_shape ha
    subst hh'
    exact wf_hmapAppend hwf (header_value_ok_valid hw)
  · intro h key value hwf
    unfold Headers.try_append
    rcases hi : into_maybe_static key with e | kc
    · exact hwf
    · simp only
      rcases hn : header_name kc.toComponent true with n | e | hp
      · simp only
        rcases hiv : into_maybe_static value with e | ms
        · exact hwf
        · simp only
          rcases hv : header_value ms true with w | e | hp
          · exact wf_hmapAppend hwf (header_value_ok_valid hv)
          · exact hwf
          · exact hwf
      · exact hwf
      · exact hwf
  · intro h k hwf
    intro p hp
    exact hwf p (List.mem_filter.mp hp).1

/-- C9 witness: the value built from the raw bytes `"a"` satisfies the UTF-8
invariant and its string view succeeds. -/
theorem c9_witness :
    utf8Valid (HeaderValue.mk ⟨[0x61]⟩)._private.bytes = true ∧
    (HeaderValue.mk ⟨[0x61]⟩).as_ref = some (HeaderValue.mk ⟨[0x61]⟩).as_str :=
  ⟨c9_utf8_invariant.1 ⟨[0x61]⟩ (HeaderValue.mk ⟨[0x61]⟩) (by rfl),
   c9_utf8_invariant.2.2.2.1 (HeaderValue.mk ⟨[0x61]⟩) (by decide)⟩

/-- C3 counterexample: for the input text `"X-Foo"` (which contains an ASCII
uppercase character), the case-normalization step of `header_name` produces
the owned ASCII-UPPERCASE copy `"X-FOO"`, so the text handed to the name
validator still contains ASCII uppercase characters — the claim's "owned
lowercase copy / no uppercase reaches the validator" is false on this code
(headers.rs line 340 calls `to_ascii_uppercase`). -/
theorem c3_counterexample :
    normalizeNameCow (.borrowed [0x58, 0x2D, 0x46, 0x6F, 0x6F])
      = .owned [0x58, 0x2D, 0x46, 0x4F, 0x4F] ∧
    (normalizeNameCow (.borrowed [0x58, 0x2D, 0x46, 0x6F, 0x6F])).str.any
      isAsciiUppercase = true ∧
    [0x58, 0x2D, 0x46, 0x4F, 0x4F]
      ≠ lowerStr [0x58, 0x2D, 0x46, 0x6F, 0x6F] := by
  decide

/-- C3 amended: in name construction, for every coerced text component that
contains an ASCII uppercase character, the algorithm produces an owned
ASCII-UPPERCASE copy of the text before validation, so the text handed to
the name validator contains no ASCII lowercase characters (the validator
itself then normalizes accepted names to lowercase). -/
theorem c3_uppercase_copy_before_validation (cow : MaybeStatic)
    (h : cow.str.any isAsciiUppercase = true) :
    normalizeNameCow cow = .owned (toAsciiUppercase cow.str) ∧
    (normalizeNameCow cow).str.all (fun c => !(isAsciiLowercase c)) = true := by
  have heq : normalizeNameCow cow = .owned (toAsciiUppercase cow.str) := by
    unfold normalizeNameCow
    rw [if_pos h]
  refine ⟨heq, ?_⟩
  rw [heq]
  show (toAsciiUppercase cow.str).all (fun c => !(isAsciiLowercase c)) = true
  rw [List.all_eq_true]
  intro c hc
  rw [toAsciiUppercase, List.mem_map] at hc
  obtain ⟨d, _, hd⟩ := hc
  subst hd
  simp [isAsciiLowercase_upperChar]

/-- C3 witness: the normalization step maps the borrowed text `"X-Foo"` to
the owned copy `"X-FOO"`, which contains no ASCII lowercase character. -/
theorem c3_witness :
    normalizeNameCow (.borrowed [0x58, 0x2D, 0x46, 0x6F, 0x6F])
      = .owned (toAsciiUppercase
        (MaybeStatic.str (.borrowed [0x58, 0x2D, 0x46, 0x6F, 0x6F]))) ∧
    (normalizeNameCow (.borrowed [0x58, 0x2D, 0x46, 0x6F, 0x6F])).str.all
      (fun c => !(isAsciiLowercase c)) = true :=
  c3_uppercase_copy_before_validation
    (.borrowed [0x58, 0x2D, 0x46, 0x6F, 0x6F]) (by decide)

/-- C7: invalid header components are rejected by every mutation — the
panicking operations `insert`/`append` panic (`none`), the fallible
operations `try_insert`/`try_append` return a typed error — for a value
string with a disallowed control character (e.g. a newline), for a name
string with a non-ASCII or syntactically invalid character, and for a raw
library value whose bytes are not valid UTF-8. -/
theorem c7_invalid_components_rejected :
    (∀ (h : Headers) (key : Component) (v : Str),
      (∃ c ∈ v, (c < 0x20 ∧ c ≠ 0x9) ∨ c = 0x7F) →
      h.insert key (.ownedString v) = none ∧
      h.append key (.ownedString v) = none ∧
      (∃ e, (h.try_insert key (.ownedString v)).1 = .err e) ∧
      (∃ e, (h.try_append key (.ownedString v)).1 = .err e)) ∧
    (∀ (h : Headers) (value : Component) (k : Str),
      (∃ c ∈ k, nameChar c = false) →
      h.insert (.ownedString k) value = none ∧
      h.append (.ownedString k) value = none ∧
      (h.try_insert (.ownedString k) value).1 = .err .invalidHeaderName ∧
      (h.try_append (.ownedString k) value).1 = .err .invalidHeaderName) ∧
    (∀ (h : Headers) (key : Component) (bs : Bytes),
      utf8Valid bs = false →
      h.insert key (.httpValue ⟨bs⟩) = none ∧
      h.append key (.httpValue ⟨bs⟩) = none ∧
      (∃ e, (h.try_insert key (.httpValue ⟨bs⟩)).1 = .err e) ∧
      (∃ e, (h.try_append key (.httpValue ⟨bs⟩)).1 = .err e)) := by
  refine ⟨?_, ?_, ?_⟩
  · rintro h key v ⟨c, hc, hbad⟩
    have hnone := http0ValueTryFromStr_bad_control hc hbad
    have hval : ∀ ps, header_value (.owned v) ps = .err .invalidHeaderValue :=
      fun ps => header_value_owned_none ps hnone
    refine ⟨?_, ?_, ?_, ?_⟩
    · unfold Headers.insert
      rcases header_name key false with n | e | hp
      · simp only [into_maybe_static]
        rw [hval false]
      · rfl
      · rfl
    · unfold Headers.append
      rcases into_maybe_static key with e | kc
      · rfl
      · simp only
        rcases header_name kc.toComponent false with n | e | hp
        · simp only [into_maybe_static]
          rw [hval false]
        · rfl
        · rfl
    · unfold Headers.try_insert
      rcases hn : header_name key true with n | e | hp
      · simp only [into_maybe_static]
        rw [hval true]
        exact ⟨.invalidHeaderValue, rfl⟩
      · exact ⟨e, rfl⟩
      · exact absurd hn (header_name_safe key)
    · unfold Headers.try_append
      rcases into_maybe_static key with e | kc
      · exact ⟨e, rfl⟩
      · simp only
        rcases hn : header_name kc.toComponent true with n | e | hp
        · simp only [into_maybe_static]
          rw [hval true]
          exact ⟨.invalidHeaderValue, rfl⟩
        · exact ⟨e, rfl⟩
        · exact absurd hn (header_name_safe _)
  · rintro h value k hbadk
    have hname : ∀ ps, nameFromCow (.owned k) ps = .err .invalidHeaderName :=
      fun ps => nameFromCow_owned_bad ps hbadk
    refine ⟨?_, ?_, ?_, ?_⟩
    · unfold Headers.insert
      rw [header_name_ownedString, hname false]
    · unfold Headers.append
      simp only [into_maybe_static]
      rw [show (MaybeStatic.owned k).toComponent = Component.cowOwned k
        from rfl, header_name_cowOwned, hname false]
    · unfold Headers.try_insert
      rw [header_name_ownedString, hname true]
    · unfold Headers.try_append
      simp only [into_maybe_static]
      rw [show (MaybeStatic.owned k).toComponent = Component.cowOwned k
        from rfl, header_name_cowOwned, hname true]
  · intro h key bs hbad
    have hdec : utf8Decode bs = none := by
      unfold utf8Valid at hbad
      rcases hd : utf8Decode bs with _ | s
      · rfl
      · rw [hd] at hbad
        simp at hbad
    have hims : into_maybe_static (.httpValue ⟨bs⟩)
        = .error .headerWasNotAString := by
      simp only [into_maybe_static]
      rw [hdec]
    refine ⟨?_, ?_, ?_, ?_⟩
    · unfold Headers.insert
      rcases header_name key false with n | e | hp
      · rw [hims]
      · rfl
      · rfl
    · unfold Headers.append
      rcases into_maybe_static key with e | kc
      · rfl
      · simp only
        rcases header_name kc.toComponent false with n | e | hp
        · rw [hims]
        · rfl
        · rfl
    · unfold Headers.try_insert
      rcases hn : header_name key true with n | e | hp
      · rw [hims]
        exact ⟨.headerWasNotAString, rfl⟩
      · exact ⟨e, rfl⟩
      · exact absurd hn (header_name_safe key)
    · unfold Headers.try_append
      rcases into_maybe_static key with e | kc
      · exact ⟨e, rfl⟩
      · simp only
        rcases hn : header_name kc.toComponent true with n | e | hp
        · rw [hims]
          exact ⟨.headerWasNotAString, rfl⟩
        · exact ⟨e, rfl⟩
        · exact absurd hn (header_name_safe _)

/-- C7 witness: the newline value `"a\nb"` under key `"x"`, the emoji name
`"💩"`, and the non-UTF-8 raw value bytes `[0xC0, 0x80]` are all rejected:
the panicking mutations panic and the fallible ones return errors. -/
theorem c7_witness :
    (Headers.new.insert (.staticStr [0x78]) (.ownedString [0x61, 0x0A, 0x62])
        = none ∧
      Headers.new.append (.staticStr [0x78]) (.ownedString [0x61, 0x0A, 0x62])
        = none ∧
      (∃ e, (Headers.new.try_insert (.staticStr [0x78])
        (.ownedString [0x61, 0x0A, 0x62])).1 = .err e) ∧
      (∃ e, (Headers.new.try_append (.staticStr [0x78])
        (.ownedString [0x61, 0x0A, 0x62])).1 = .err e)) ∧
    (Headers.new.insert (.ownedString [0x1F4A9]) (.staticStr [0x31]) = none ∧
      Headers.new.append (.ownedString [0x1F4A9]) (.staticStr [0x31]) = none ∧
      (Headers.new.try_insert (.ownedString [0x1F4A9]) (.staticStr [0x31])).1
        = .err .invalidHeaderName ∧
      (Headers.new.try_append (.ownedString [0x1F4A9]) (.staticStr [0x31])).1
        = .err .invalidHeaderName) ∧
    (Headers.new.insert (.staticStr [0x78]) (.httpValue ⟨[0xC0, 0x80]⟩)
        = none ∧
      Headers.new.append (.staticStr [0x78]) (.httpValue ⟨[0xC0, 0x80]⟩)
        = none ∧
      (∃ e, (Headers.new.try_insert (.staticStr [0x78])
        (.httpValue ⟨[0xC0, 0x80]⟩)).1 = .err e) ∧
      (∃ e, (Headers.new.try_append (.staticStr [0x78])
        (.httpValue ⟨[0xC0, 0x80]⟩)).1 = .err e)) :=
  ⟨c7_invalid_components_rejected.1 Headers.new (.staticStr [0x78])
     [0x61, 0x0A, 0x62] ⟨0x0A, by simp, by omega⟩,
   c7_invalid_components_rejected.2.1 Headers.new (.staticStr [0x31])
     [0x1F4A9] ⟨0x1F4A9, by simp, by decide⟩,
   c7_invalid_components_rejected.2.2 Headers.new (.staticStr [0x78])
     [0xC0, 0x80] (by decide)⟩

end SmithyHeaders

